import Mathlib

/-!
Verification development for `shinju.py`, a tree-display tool with
name/content search.  The core components are embedded shallowly:

* `search_file`, `is_binary_file` — the Content Matcher (src/shinju.py:51-110);
* `format_entry` — entry formatting (src/shinju.py:113-141);
* `walk_tree` — the recursive Tree Walker (src/shinju.py:144-250).

The filesystem is modelled by the inductive `FSEntry`; a `FileData` record
carries what the Python code can observe of a file: its raw bytes (for the
binary sniff), its decoded text lines (the `readlines()` result under
`errors="ignore"`), and whether reading succeeds at all.  Python's `re`
engine is an external library; it enters the embedding as a `RegexModel`
parameter whose literal-pattern fragment (`re.escape` + `findall`/`search`)
is modelled exactly, since literal (non-regex) matching is plain substring
scanning.  The recursion of `walk_tree` is encoded with an explicit fuel
argument (`walkD`), instantiated with `sizeOf` of the tree, so that every
definition stays structurally recursive and kernel-computable; fuel
exhaustion is a distinguished error that the entry point can never produce
(enough fuel is supplied), as established by the adequacy lemmas below.
-/

namespace Shinju

/-! ### ANSI colors and glyphs (src/shinju.py:18-42) -/

namespace Colors

def RESET : String := "\x1b[0m"

def BOLD : String := "\x1b[1m"

def MAGENTA : String := "\x1b[35m"

def CYAN : String := "\x1b[36m"

def YELLOW : String := "\x1b[33m"

def GREEN : String := "\x1b[32m"

def BLUE : String := "\x1b[34m"

def DIM : String := "\x1b[2m"

def RED : String := "\x1b[31m"

end Colors

def BRANCH : String := "├── "

def LAST_BRANCH : String := "└── "

def PIPE : String := "│   "

def SPACE : String := "    "

/-- File extensions excluded from content search (src/shinju.py:45-48).
The Python set is modelled as a list; only membership is ever used. -/
def EXCLUDE_EXTENSIONS : List String :=
  ["gz", "zip", "tar", "rar", "7z", "bz2", "xz",
   "deb", "img", "iso", "vmdk", "dll", "ovf", "ova"]

/-! ### Character/string helpers

The Python string primitives the code uses (`str.lower`, `str.strip`,
`str.split(",")`, `str.startswith(".")`, `Path.suffix`, `lstrip(".")`) are
modelled on `List Char` so that everything reduces inside the kernel.
Unicode-specific casing/whitespace beyond ASCII is out of scope of the
model (every string the program compares case-insensitively is treated
with ASCII `Char.toLower`, matching CPython on ASCII input). -/

def lowerChars (cs : List Char) : List Char := cs.map Char.toLower

/-- The whitespace characters stripped by Python's `str.strip()` (ASCII part). -/
def isPySpace (c : Char) : Bool :=
  c == ' ' || c == '\t' || c == '\n' || c == '\r' || c == '\x0b' || c == '\x0c'

/-- Model of `str.strip()`. -/
def trimChars (cs : List Char) : List Char :=
  ((cs.dropWhile isPySpace).reverse.dropWhile isPySpace).reverse

/-- Model of `str.split(",")`: splitting on every comma, keeping empty pieces
(`"".split(",") = [""]`, `"a,,b".split(",") = ["a","","b"]`). -/
def splitCommas : List Char → List (List Char)
  | [] => [[]]
  | c :: rest =>
    if c = ',' then [] :: splitCommas rest
    else
      match splitCommas rest with
      | [] => [[c]]
      | t :: ts => (c :: t) :: ts

/-- Case folding applied on both sides when `re.IGNORECASE` is in effect. -/
def foldChar (ic : Bool) (c : Char) : Char := if ic then c.toLower else c

/-- Does the (possibly case-folded) pattern `k` occur at the head of `s`? -/
def prefixIC (ic : Bool) : List Char → List Char → Bool
  | [], _ => true
  | _ :: _, [] => false
  | a :: as, b :: bs => (foldChar ic a == foldChar ic b) && prefixIC ic as bs

/-- Left-to-right non-overlapping scan for the literal pattern `k`
(nonempty), returning the matched substrings in order; `skip` counts the
characters still covered by the previous match.  This is exactly what
`re.compile(re.escape(k), flags).findall(line)` produces for a literal
keyword. -/
def litScan (ic : Bool) (k : List Char) : List Char → Nat → List (List Char)
  | [], _ => []
  | _ :: rest, skip + 1 => litScan ic k rest skip
  | s@(_ :: rest), 0 =>
    if prefixIC ic k s then s.take k.length :: litScan ic k rest (k.length - 1)
    else litScan ic k rest 0

/-- All matches of the literal pattern `k` on `s`, as returned by Python's
`findall` on an escaped literal: non-overlapping, scanned left to right;
the empty pattern matches once at every position (`len(s) + 1` matches). -/
def litMatches (ic : Bool) (k s : List Char) : List (List Char) :=
  if k = [] then List.replicate (s.length + 1) []
  else litScan ic k s 0

/-- Does the literal pattern `k` occur anywhere in `s`?  This is
`re.compile(re.escape(k), flags).search(s) is not None`. -/
def containsIC (ic : Bool) (k : List Char) : List Char → Bool
  | [] => k.isEmpty
  | s@(_ :: rest) => prefixIC ic k s || containsIC ic k rest

/-- Model of `name.startswith(".")` (src/shinju.py:175). -/
def startsWithDot (s : String) : Bool :=
  match s.data with
  | [] => false
  | c :: _ => c == '.'

/-- Index of the last `'.'` in a name, if any (CPython `str.rfind('.')`). -/
def lastDotIdx (n : List Char) : Option Nat :=
  (n.foldl (fun (st : Nat × Option Nat) c =>
    (st.1 + 1, if c = '.' then some st.1 else st.2)) (0, none)).2

/-- Model of `pathlib.PurePath.suffix` on a final path component: the part
from the last dot on, provided that dot is neither the first nor the last
character; otherwise empty. -/
def pathSuffix (n : List Char) : List Char :=
  match lastDotIdx n with
  | some i => if 0 < i ∧ i < n.length - 1 then n.drop i else []
  | none => []

/-- `filepath.suffix.lstrip(".").lower()` (src/shinju.py:68). -/
def extOf (name : String) : String :=
  String.mk (lowerChars ((pathSuffix name.data).dropWhile (fun c => c = '.')))

/-! ### The filesystem model -/

/-- What the program can observe of a regular file's contents:
`bytes` — the raw bytes (used by the binary sniff, which reads the first
1024 of them); `lines` — the result of `readlines()` under UTF-8 decoding
with `errors="ignore"`; `readOk` — whether opening/reading the file
succeeds at all (an `IOError`/`OSError` on read makes `is_binary_file`
return `True`, so an unreadable file is classified binary). -/
structure FileData where
  bytes : List Nat
  lines : List String
  readOk : Bool
deriving DecidableEq, Repr

/-- `is_binary_file` (src/shinju.py:51-58): read up to 1024 bytes and look
for a null byte; any read failure counts as binary. -/
def is_binary_file (fd : FileData) : Bool :=
  if fd.readOk then (fd.bytes.take 1024).contains 0 else true

/-- One filesystem node.  A directory additionally records whether
`iterdir()` succeeds on it (`listable = false` models `PermissionError`,
src/shinju.py:169). -/
inductive FSEntry where
  | file (name : String) (data : FileData)
  | dir (name : String) (listable : Bool) (children : List FSEntry)

def nameOf : FSEntry → String
  | .file n _ => n
  | .dir n _ _ => n

/-- `entry.is_dir()`. -/
def isDirE : FSEntry → Bool
  | .file _ _ => false
  | .dir _ _ _ => true

def dataOf : FSEntry → FileData
  | .file _ d => d
  | .dir _ _ _ => ⟨[], [], true⟩

/-! ### Model of the external `re` engine

Python's `re` module is an external library.  The code uses it in two
modes: with `re.escape`d literal patterns (modelled exactly by
`litMatches`/`containsIC` above) and with raw user-supplied regexes.  The
raw-regex mode enters the embedding as this abstract engine: `compiles p`
says whether `re.compile p` succeeds (raises `re.error` otherwise),
`findall p ic line` is `Pattern.findall(line)` and `searchb p ic s` is
`Pattern.search(s) is not None`.  All general theorems below hold for
every engine; concrete witnesses use the sample instance `pyRe`. -/
structure RegexModel where
  compiles : String → Bool
  findall : String → Bool → String → List String
  searchb : String → Bool → String → Bool

/-- Unbalanced-parenthesis check: a necessary condition for a pattern to
compile under Python `re` (ignoring escapes): `re.compile "("` raises
`re.error: missing ), unterminated subpattern`. -/
def parensOk : List Char → Nat → Bool
  | [], 0 => true
  | [], _ + 1 => false
  | c :: rest, d =>
    if c = '(' then parensOk rest (d + 1)
    else if c = ')' then (match d with | 0 => false | d' + 1 => parensOk rest d')
    else parensOk rest d

/-- Sample concrete `re` engine covering the fragment the witnesses use:
patterns without metacharacters behave literally, and a pattern with
unbalanced parentheses (such as `"("`) fails to compile, as in Python. -/
def pyRe : RegexModel where
  compiles p := parensOk p.data 0
  findall p ic line := (litMatches ic p.data line.data).map (fun cs => String.mk cs)
  searchb p ic s := containsIC ic p.data s.data

/-! ### The Content Matcher: `search_file` (src/shinju.py:61-110) -/

/-- A compiled pattern: either an escaped literal keyword or a raw regex. -/
inductive CPat where
  | lit (k : List Char)
  | rxp (p : String)

/-- `compiled_pattern.findall(line)`. -/
def runFindall (rm : RegexModel) (ic : Bool) (cp : CPat) (line : String) : List String :=
  match cp with
  | .lit k => (litMatches ic k line.data).map (fun cs => String.mk cs)
  | .rxp p => rm.findall p ic line

/-- Building `first_snippet` (src/shinju.py:100-106): first matched text
with the stripped source line, the line truncated to 50 characters plus an
ellipsis marker.  Apostrophes are written `\x27`. -/
def mkSnippet (firstMatch : String) (line : String) : String :=
  let ls := trimChars line.data
  let ls := if ls.length > 50 then ls.take 50 ++ "...".data else ls
  "[\x27" ++ firstMatch ++ "\x27 => \x27" ++ String.mk ls ++ "\x27]"

/-- One `for compiled_pattern in compiled_patterns` step of the counting
loop (src/shinju.py:94-106), acting on the `(match_count, first_snippet)`
accumulator. -/
def patStep (rm : RegexModel) (ic : Bool) (line : String) (acc : Nat × String) (cp : CPat) : Nat × String :=
  let ms := runFindall rm ic cp line
  if ms.isEmpty then acc
  else (acc.1 + ms.length, if acc.2 = "" then mkSnippet (ms.headD "") line else acc.2)

/-- The full double loop over lines and compiled patterns. -/
def searchLoop (rm : RegexModel) (ic : Bool) (cps : List CPat) (lines : List String) : Nat × String :=
  lines.foldl (fun acc line => cps.foldl (patStep rm ic line) acc) (0, "")

/-- Comma-splitting of a non-regex pattern (src/shinju.py:85):
`[p.strip() for p in pattern.split(",") if p.strip()]`. -/
def keywordsOf (pat : String) : List (List Char) :=
  ((splitCommas pat.data).map trimChars).filter (fun k => k ≠ [])

/-- `search_file` (src/shinju.py:61-110).  The Python function takes a
path; here the path's final name and the file's observable data are passed
separately.  Skips excluded extensions and binary files; in non-regex mode
splits the pattern on commas into trimmed literal keywords; an invalid
regex (caught `re.error`) yields `(0, "")`. -/
def search_file (rm : RegexModel) (name : String) (fd : FileData) (pattern : String) (is_regex : Bool) (ignore_case : Bool) : Nat × String :=
  if EXCLUDE_EXTENSIONS.contains (extOf name) then (0, "")
  else if is_binary_file fd then (0, "")
  else if is_regex && !rm.compiles pattern then (0, "")
  else
    let cps := if is_regex then [CPat.rxp pattern] else (keywordsOf pattern).map CPat.lit
    searchLoop rm ignore_case cps fd.lines

/-! ### Entry formatting: `format_entry` (src/shinju.py:113-141) -/

def format_entry (name : String) (is_dir : Bool) (match_count : Nat) (snippet : String) (name_matched : Bool) (search_active : Bool) : String :=
  if name_matched && decide (match_count > 0) then
    let suffix := if is_dir then "/" else ""
    Colors.GREEN ++ Colors.BOLD ++ name ++ suffix ++ Colors.RESET ++ " " ++
      Colors.CYAN ++ snippet ++ Colors.RESET
  else if name_matched then
    let suffix := if is_dir then "/" else ""
    Colors.GREEN ++ Colors.BOLD ++ name ++ suffix ++ Colors.RESET ++ " " ++
      Colors.YELLOW ++ "[match]" ++ Colors.RESET
  else if is_dir then
    Colors.BLUE ++ Colors.BOLD ++ name ++ "/" ++ Colors.RESET
  else if match_count > 0 then
    let match_text := if match_count = 1 then "match" else "matches"
    Colors.MAGENTA ++ Colors.BOLD ++ name ++ Colors.RESET ++ " " ++
      Colors.YELLOW ++ "[" ++ toString match_count ++ " " ++ match_text ++ "]" ++ Colors.RESET ++ " " ++
      Colors.CYAN ++ snippet ++ Colors.RESET
  else if search_active then
    Colors.DIM ++ name ++ Colors.RESET
  else name

/-! ### The Tree Walker: `walk_tree` (src/shinju.py:144-250) -/

/-- The walker's configuration (the keyword parameters of `walk_tree`,
src/shinju.py:144-156, minus the per-call `prefix`/`current_depth`).
`max_depth` is an `Option Int` because `-L` accepts any integer. -/
structure Config where
  show_hidden : Bool := false
  dirs_only : Bool := false
  max_depth : Option Int := none
  search_pattern : Option String := none
  name_pattern : Option String := none
  is_regex : Bool := false
  ignore_case : Bool := false
  match_only : Bool := false
deriving Repr

/-- The per-frame statistics dictionary (src/shinju.py:162). -/
structure Stats where
  dirs : Nat
  files : Nat
  name_matches : Nat
  content_matches : Nat
deriving DecidableEq, Repr

def Stats.zero : Stats := ⟨0, 0, 0, 0⟩

def Stats.add (a b : Stats) : Stats :=
  ⟨a.dirs + b.dirs, a.files + b.files,
   a.name_matches + b.name_matches, a.content_matches + b.content_matches⟩

/-- Python truthiness of an optional string (`if name_pattern:`):
`None` and `""` are falsy. -/
def truthyOpt : Option String → Bool
  | none => false
  | some s => s != ""

/-- `max_depth is not None and current_depth >= max_depth`
(src/shinju.py:164). -/
def depthCutoff (cfg : Config) (depth : Nat) : Bool :=
  match cfg.max_depth with
  | none => false
  | some m => decide ((depth : Int) ≥ m)

/-- The rank `not e.is_dir()` in the sort key (src/shinju.py:168):
directories order before files. -/
def rankOf (e : FSEntry) : Nat := if isDirE e then 0 else 1

def lowName (e : FSEntry) : List Char := lowerChars (nameOf e).data

/-- Code-point lexicographic `≤` on character lists: Python string
comparison on the lowered names. -/
def charsLe : List Char → List Char → Bool
  | [], _ => true
  | _ :: _, [] => false
  | a :: as, b :: bs =>
    if a.toNat < b.toNat then true
    else if b.toNat < a.toNat then false
    else charsLe as bs

/-- The total preorder underlying `sorted(..., key=lambda e:
(not e.is_dir(), e.name.lower()))`: lexicographic on the pair. -/
def entryR (a b : FSEntry) : Prop :=
  rankOf a < rankOf b ∨ (rankOf a = rankOf b ∧ charsLe (lowName a) (lowName b) = true)

instance : DecidableRel entryR := fun _ _ =>
  inferInstanceAs (Decidable (_ ∨ _ ∧ _))

/-- `sorted(directory.iterdir(), key=...)` (src/shinju.py:168).  Python's
`sorted` is a stable sort; a stable sort for a given total preorder is
unique as a function, so it is modelled by stable insertion sort. -/
def sortEntries (l : List FSEntry) : List FSEntry := List.insertionSort entryR l

/-- The hidden-name and dirs-only filters (src/shinju.py:173-179), applied
after sorting. -/
def applyFilters (cfg : Config) (entries : List FSEntry) : List FSEntry :=
  let e1 := if cfg.show_hidden then entries else entries.filter (fun e => !startsWithDot (nameOf e))
  if cfg.dirs_only then e1.filter (fun e => isDirE e) else e1

/-- What can abort a walk: `re.error` escaping from the uncaught
`re.compile` of the name pattern (src/shinju.py:199), `iterdir()` on a
non-directory, and — an artifact of the fuel encoding only — fuel
exhaustion, which `walk_tree`'s fuel supply makes unreachable. -/
inductive WalkErr where
  | reError
  | notADirectory
  | fuelOut
deriving DecidableEq, Repr

/-- The name-pattern test for one entry (src/shinju.py:197-202).  Note the
`re.compile` here sits outside any `try`, so with `is_regex` a
non-compiling name pattern raises out of the walker. -/
def nameMatchOf (rm : RegexModel) (cfg : Config) (nm : String) : Except WalkErr Bool :=
  if truthyOpt cfg.name_pattern then
    let np := cfg.name_pattern.getD ""
    if cfg.is_regex then
      if rm.compiles np then .ok (rm.searchb np cfg.ignore_case nm) else .error .reError
    else .ok (containsIC cfg.ignore_case np.data nm.data)
  else .ok false

/-- The content-search step for one entry (src/shinju.py:204-208): only a
truthy `search_pattern` and only non-directories reach `search_file`. -/
def contentOf (rm : RegexModel) (cfg : Config) (e : FSEntry) : Nat × String :=
  if truthyOpt cfg.search_pattern && !isDirE e then
    search_file rm (nameOf e) (dataOf e) (cfg.search_pattern.getD "") cfg.is_regex cfg.ignore_case
  else (0, "")

/-- The `for i, entry in enumerate(entries)` loop of `walk_tree`
(src/shinju.py:181-249), over the already sorted-and-filtered entries.
`w` performs the recursive call on a child directory. -/
def goList (rm : RegexModel) (cfg : Config) (w : FSEntry → String → Nat → Except WalkErr (List String × Stats)) (pfx : String) (depth : Nat) : List FSEntry → Except WalkErr (List String × Stats)
  | [] => .ok ([], Stats.zero)
  | e :: rest =>
    let is_last := rest.isEmpty
    let branch := if is_last then LAST_BRANCH else BRANCH
    let nextPfx := pfx ++ (if is_last then SPACE else PIPE)
    match nameMatchOf rm cfg (nameOf e) with
    | .error err => .error err
    | .ok name_matched =>
      let res := contentOf rm cfg e
      let match_count := res.1
      let snippet := res.2
      let search_active := cfg.search_pattern.isSome || cfg.name_pattern.isSome
      let formatted := format_entry (nameOf e) (isDirE e) match_count snippet name_matched search_active
      let own : Stats :=
        ⟨if isDirE e then 1 else 0, if isDirE e then 0 else 1,
         if name_matched then 1 else 0, if match_count > 0 then 1 else 0⟩
      match e with
      | .file _ _ =>
        (match goList rm cfg w pfx depth rest with
         | .error err => .error err
         | .ok (restLines, restStats) =>
           let here :=
             if !cfg.match_only || (name_matched || decide (match_count > 0)) then
               [pfx ++ branch ++ formatted]
             else []
           .ok (here ++ restLines, Stats.add own restStats))
      | .dir _ _ _ =>
        (match w e nextPfx (depth + 1) with
         | .error err => .error err
         | .ok (subLines, subStats) =>
           match goList rm cfg w pfx depth rest with
           | .error err => .error err
           | .ok (restLines, restStats) =>
             let has_matches :=
               decide (subStats.name_matches > 0) || decide (subStats.content_matches > 0) || name_matched
             let here :=
               if !cfg.match_only || has_matches then
                 (pfx ++ branch ++ formatted) :: subLines
               else []
             .ok (here ++ restLines, Stats.add (Stats.add own subStats) restStats))

/-- The head of `walk_tree` (src/shinju.py:161-179): depth cutoff, the
`iterdir` enumeration with its `PermissionError` placeholder, sorting and
filtering; `go` is the loop over the resulting entries. -/
def walkAux (cfg : Config) (go : String → Nat → List FSEntry → Except WalkErr (List String × Stats)) (e : FSEntry) (pfx : String) (depth : Nat) : Except WalkErr (List String × Stats) :=
  if depthCutoff cfg depth then .ok ([], Stats.zero)
  else
    match e with
    | .file _ _ => .error .notADirectory
    | .dir _ listable children =>
      if listable then go pfx depth (applyFilters cfg (sortEntries children))
      else .ok ([pfx ++ Colors.DIM ++ "[permission denied]" ++ Colors.RESET], Stats.zero)

/-- Fuel-indexed walker: ties `walkAux` and `goList` together, spending one
unit of fuel per directory level. -/
def walkD (rm : RegexModel) (cfg : Config) : Nat → FSEntry → String → Nat → Except WalkErr (List String × Stats)
  | 0, _, _, _ => .error .fuelOut
  | fuel + 1, e, pfx, depth => walkAux cfg (goList rm cfg (walkD rm cfg fuel)) e pfx depth

mutual

/-- Total node-count measure of a tree, used as the walker's fuel. -/
def fsSize : FSEntry → Nat
  | .file _ _ => 1
  | .dir _ _ children => 1 + fsSizeList children

/-- Node-count measure of a forest. -/
def fsSizeList : List FSEntry → Nat
  | [] => 1
  | e :: rest => 1 + fsSize e + fsSizeList rest

end

/-- `walk_tree` (src/shinju.py:144-250): `walk_tree(directory, prefix, ...,
current_depth)` for a fully resolved configuration.  `fsSize e` strictly
dominates the directory nesting depth, so the fuel never runs out (see the
adequacy lemmas). -/
def walk_tree (rm : RegexModel) (cfg : Config) (e : FSEntry) (pfx : String) (depth : Nat) : Except WalkErr (List String × Stats) :=
  walkD rm cfg (fsSize e) e pfx depth

/-- The visibility gate of the spec's counting property: an entry is
tallied when it is not hidden (or `showHidden` is on) and, under
`dirsOnly`, is a directory (spec §8, first property; §4.2 step 3). -/
def keptBy (cfg : Config) (e : FSEntry) : Bool :=
  (cfg.show_hidden || !startsWithDot (nameOf e)) && (!cfg.dirs_only || isDirE e)

def pairAdd (a b : Nat × Nat) : Nat × Nat := (a.1 + b.1, a.2 + b.2)

mutual

/-- Modelled from the spec (§3 Stats invariant, §8 first property): the
`(dirs, files)` totals of all descendants of `e` "reachable within
maxDepth" when `e` is walked at `depth` — children of an unlistable
directory and everything below the depth cutoff are unreachable; hidden
entries (unless `showHidden`) and, under `dirsOnly`, non-directories are
not counted and not descended into. -/
def specPair (cfg : Config) (depth : Nat) : FSEntry → Nat × Nat
  | .file _ _ => (0, 0)
  | .dir _ listable children =>
    if depthCutoff cfg depth then (0, 0)
    else if listable then specKept cfg depth children
    else (0, 0)

/-- Modelled from the spec: the reachable-descendant tally contributed by a
directory's children; each kept child counts once and contributes its own
subtree's tally. -/
def specKept (cfg : Config) (depth : Nat) : List FSEntry → Nat × Nat
  | [] => (0, 0)
  | x :: rest =>
    pairAdd
      (if keptBy cfg x then
        pairAdd (if isDirE x then (1, 0) else (0, 1)) (specPair cfg (depth + 1) x)
       else (0, 0))
      (specKept cfg depth rest)

end

/-- The spec-side tally of one kept child: itself plus its own subtree. -/
def specEntry (cfg : Config) (depth : Nat) (x : FSEntry) : Nat × Nat :=
  pairAdd (if isDirE x then (1, 0) else (0, 1)) (specPair cfg (depth + 1) x)

/-- The spec-side tally of a list of kept children. -/
def specSum (cfg : Config) (depth : Nat) (l : List FSEntry) : Nat × Nat :=
  (l.map (specEntry cfg depth)).foldr pairAdd (0, 0)

/-- The value the walker's name-pattern test yields whenever it does not
raise (src/shinju.py:197-202): with a truthy name pattern, a regex or
escaped-literal search anywhere in the name; otherwise no match. -/
def nameMatchedB (rm : RegexModel) (cfg : Config) (nm : String) : Bool :=
  if truthyOpt cfg.name_pattern then
    if cfg.is_regex then rm.searchb (cfg.name_pattern.getD "") cfg.ignore_case nm
    else containsIC cfg.ignore_case (cfg.name_pattern.getD "").data nm.data
  else false

/-- Modelled from the spec (§3, §4.2 step 5): the "own direct-child tally"
one entry contributes to its parent's frame — one dir or one file, one
name match if its name matches, one content match if it is a
non-directory whose content search finds anything. -/
def specTally (rm : RegexModel) (cfg : Config) (e : FSEntry) : Stats :=
  ⟨if isDirE e then 1 else 0,
   if isDirE e then 0 else 1,
   if nameMatchedB rm cfg (nameOf e) then 1 else 0,
   if (contentOf rm cfg e).1 > 0 then 1 else 0⟩

mutual

/-- Modelled from the spec (§3 Stats invariant): the full-subtree aggregate
Stats of everything reachable from `e` walked at `depth` — for each kept
child, its own direct tally plus its entire descendant Stats, summed;
nothing below the depth cutoff or inside an unlistable directory is
reachable. -/
def specStats (rm : RegexModel) (cfg : Config) (depth : Nat) : FSEntry → Stats
  | .file _ _ => Stats.zero
  | .dir _ listable children =>
    if depthCutoff cfg depth then Stats.zero
    else if listable then specStatsKept rm cfg depth children
    else Stats.zero

/-- Modelled from the spec: the aggregate Stats contributed by a
directory's children — each kept child adds its own tally plus its
subtree's Stats. -/
def specStatsKept (rm : RegexModel) (cfg : Config) (depth : Nat) : List FSEntry → Stats
  | [] => Stats.zero
  | x :: rest =>
    Stats.add
      (if keptBy cfg x then
        Stats.add (specTally rm cfg x) (specStats rm cfg (depth + 1) x)
       else Stats.zero)
      (specStatsKept rm cfg depth rest)

end

/-- The spec-side aggregate Stats of a list of already-kept entries. -/
def specSumFull (rm : RegexModel) (cfg : Config) (d : Nat) : List FSEntry → Stats
  | [] => Stats.zero
  | x :: rest =>
    Stats.add (Stats.add (specTally rm cfg x) (specStats rm cfg (d + 1) x))
      (specSumFull rm cfg d rest)

instance {ε α : Type} [DecidableEq ε] [DecidableEq α] : DecidableEq (Except ε α) := fun x y =>
  match x, y with
  | .ok u, .ok v =>
    if h : u = v then .isTrue (by rw [h]) else .isFalse (by intro hc; cases hc; exact h rfl)
  | .error u, .error v =>
    if h : u = v then .isTrue (by rw [h]) else .isFalse (by intro hc; cases hc; exact h rfl)
  | .ok _, .error _ => .isFalse (by intro hc; cases hc)
  | .error _, .ok _ => .isFalse (by intro hc; cases hc)

/-! ## Basic lemmas about the measures, the sort and the filters -/

theorem Stats.add_zero_right (s : Stats) : Stats.add s Stats.zero = s := by
  cases s; simp [Stats.add, Stats.zero]

theorem fsSize_pos (e : FSEntry) : 0 < fsSize e := by
  cases e <;> simp [fsSize]

theorem fsSize_lt_of_mem {x : FSEntry} {l : List FSEntry} (h : x ∈ l) :
    fsSize x < fsSizeList l := by
  induction l with
  | nil => cases h
  | cons e rest ih =>
    rcases List.mem_cons.mp h with rfl | h2
    · simp [fsSizeList]; omega
    · have := ih h2; simp [fsSizeList]; omega

theorem fsSizeList_perm {l₁ l₂ : List FSEntry} (h : List.Perm l₁ l₂) :
    fsSizeList l₁ = fsSizeList l₂ := by
  induction h with
  | nil => rfl
  | cons x _ ih => simp [fsSizeList, ih]
  | swap x y l => simp [fsSizeList]; omega
  | trans _ _ ih1 ih2 => omega

theorem fsSizeList_filter_le (p : FSEntry → Bool) (l : List FSEntry) :
    fsSizeList (l.filter p) ≤ fsSizeList l := by
  induction l with
  | nil => exact Nat.le_refl _
  | cons e rest ih =>
    simp only [List.filter]
    split
    · simp [fsSizeList]; omega
    · simp [fsSizeList]; omega

theorem sortEntries_perm (l : List FSEntry) : List.Perm (sortEntries l) l :=
  List.perm_insertionSort entryR l

theorem applyFilters_eq_filter (cfg : Config) (l : List FSEntry) :
    applyFilters cfg l = l.filter (keptBy cfg) := by
  cases hsh : cfg.show_hidden <;> cases hdo : cfg.dirs_only <;>
    simp only [applyFilters, hsh, hdo, if_true, if_false, Bool.false_eq_true,
      Bool.true_eq_false]
  · exact List.filter_congr fun a _ => by simp [keptBy, hsh, hdo]
  · rw [List.filter_filter]
    exact List.filter_congr fun a _ => by
      simp only [keptBy, hsh, hdo]
      cases isDirE a <;> cases startsWithDot (nameOf a) <;> rfl
  · exact (List.filter_true l).symm.trans
      (List.filter_congr fun a _ => by simp [keptBy, hsh, hdo])
  · exact List.filter_congr fun a _ => by simp [keptBy, hsh, hdo]

theorem mem_applyFilters {cfg : Config} {x : FSEntry} {l : List FSEntry}
    (h : x ∈ applyFilters cfg l) : x ∈ l := by
  rw [applyFilters_eq_filter] at h
  exact List.mem_of_mem_filter h

theorem fsSizeList_applyFilters_le (cfg : Config) (l : List FSEntry) :
    fsSizeList (applyFilters cfg l) ≤ fsSizeList l := by
  rw [applyFilters_eq_filter]
  exact fsSizeList_filter_le _ l

theorem fsSizeList_walk_children_le (cfg : Config) (l : List FSEntry) :
    fsSizeList (applyFilters cfg (sortEntries l)) ≤ fsSizeList l := by
  calc fsSizeList (applyFilters cfg (sortEntries l))
      ≤ fsSizeList (sortEntries l) := fsSizeList_applyFilters_le _ _
    _ = fsSizeList l := fsSizeList_perm (sortEntries_perm l)

/-! ## The sort order is a total preorder -/

theorem charsLe_total : ∀ a b : List Char, charsLe a b = true ∨ charsLe b a = true := by
  intro a
  induction a with
  | nil => intro b; exact Or.inl rfl
  | cons x xs ih =>
    intro b
    cases b with
    | nil => exact Or.inr rfl
    | cons y ys =>
      rcases Nat.lt_trichotomy x.toNat y.toNat with h | h | h
      · left; simp [charsLe, h]
      · have h1 : ¬ x.toNat < y.toNat := by omega
        have h2 : ¬ y.toNat < x.toNat := by omega
        simpa [charsLe, h1, h2] using ih ys
      · right; simp [charsLe, h]

theorem charsLe_trans : ∀ a b c : List Char,
    charsLe a b = true → charsLe b c = true → charsLe a c = true := by
  intro a
  induction a with
  | nil => intro b c _ _; rfl
  | cons x xs ih =>
    intro b c h1 h2
    cases b with
    | nil => simp [charsLe] at h1
    | cons y ys =>
      cases c with
      | nil => simp [charsLe] at h2
      | cons z zs =>
        simp only [charsLe] at h1 h2 ⊢
        split_ifs at h1 h2 ⊢ <;> try rfl
        all_goals first
          | omega
          | exact ih ys zs h1 h2

instance : IsTotal FSEntry entryR := by
  constructor
  intro a b
  rcases Nat.lt_trichotomy (rankOf a) (rankOf b) with h | h | h
  · exact Or.inl (Or.inl h)
  · rcases charsLe_total (lowName a) (lowName b) with hc | hc
    · exact Or.inl (Or.inr ⟨h, hc⟩)
    · exact Or.inr (Or.inr ⟨h.symm, hc⟩)
  · exact Or.inr (Or.inl h)

instance : IsTrans FSEntry entryR := by
  constructor
  intro a b c h1 h2
  rcases h1 with h1 | ⟨h1e, h1c⟩ <;> rcases h2 with h2 | ⟨h2e, h2c⟩
  · exact Or.inl (Nat.lt_trans h1 h2)
  · exact Or.inl (h2e ▸ h1)
  · exact Or.inl (h1e ▸ h2)
  · exact Or.inr ⟨h1e.trans h2e, charsLe_trans _ _ _ h1c h2c⟩

/-! ## The spec-side counter -/

theorem pairAdd_zero_left (b : Nat × Nat) : pairAdd (0, 0) b = b := by
  simp [pairAdd]

theorem specSum_nil (cfg : Config) (d : Nat) : specSum cfg d [] = (0, 0) := rfl

theorem specSum_cons (cfg : Config) (d : Nat) (x : FSEntry) (l : List FSEntry) :
    specSum cfg d (x :: l) = pairAdd (specEntry cfg d x) (specSum cfg d l) := rfl

theorem specSum_components (cfg : Config) (d : Nat) (l : List FSEntry) :
    specSum cfg d l =
      ((l.map fun x => (specEntry cfg d x).1).sum,
       (l.map fun x => (specEntry cfg d x).2).sum) := by
  induction l with
  | nil => rfl
  | cons x rest ih => simp [specSum_cons, ih, pairAdd]

theorem specSum_perm {l₁ l₂ : List FSEntry} (cfg : Config) (d : Nat)
    (h : List.Perm l₁ l₂) : specSum cfg d l₁ = specSum cfg d l₂ := by
  rw [specSum_components, specSum_components]
  exact Prod.ext (List.Perm.sum_eq (h.map _)) (List.Perm.sum_eq (h.map _))

theorem specKept_eq_specSum (cfg : Config) (d : Nat) (l : List FSEntry) :
    specKept cfg d l = specSum cfg d (l.filter (keptBy cfg)) := by
  induction l with
  | nil => rfl
  | cons x rest ih =>
    simp only [specKept, List.filter_cons]
    split
    · rw [specSum_cons, ih, specEntry]
    · rw [ih, pairAdd_zero_left]

theorem specPair_dir (cfg : Config) (depth : Nat) (n : String) (lb : Bool)
    (ch : List FSEntry) :
    specPair cfg depth (.dir n lb ch) =
      if depthCutoff cfg depth then (0, 0)
      else if lb then specSum cfg depth (ch.filter (keptBy cfg))
      else (0, 0) := by
  rw [specPair, specKept_eq_specSum]

/-! ## Content Matcher lemmas -/

theorem patStep_fst (rm : RegexModel) (ic : Bool) (line : String) (acc : Nat × String)
    (cp : CPat) :
    (patStep rm ic line acc cp).1 = acc.1 + (runFindall rm ic cp line).length := by
  cases h : (runFindall rm ic cp line).isEmpty
  · simp [patStep, h]
  · have h2 : runFindall rm ic cp line = [] := by simpa using h
    simp [patStep, h2]

theorem patFold_fst (rm : RegexModel) (ic : Bool) (line : String) (cps : List CPat)
    (acc : Nat × String) :
    (cps.foldl (patStep rm ic line) acc).1 =
      acc.1 + (cps.map fun cp => (runFindall rm ic cp line).length).sum := by
  induction cps generalizing acc with
  | nil => simp
  | cons cp rest ih =>
    simp only [List.foldl_cons, List.map_cons, List.sum_cons]
    rw [ih, patStep_fst]
    omega

theorem lineFold_fst (rm : RegexModel) (ic : Bool) (cps : List CPat)
    (lines : List String) (acc : Nat × String) :
    ((lines.foldl (fun a line => cps.foldl (patStep rm ic line) a) acc)).1 =
      acc.1 + (lines.map fun line =>
        (cps.map fun cp => (runFindall rm ic cp line).length).sum).sum := by
  induction lines generalizing acc with
  | nil => simp
  | cons line rest ih =>
    simp only [List.foldl_cons, List.map_cons, List.sum_cons]
    rw [ih, patFold_fst]
    omega

theorem searchLoop_fst (rm : RegexModel) (ic : Bool) (cps : List CPat)
    (lines : List String) :
    (searchLoop rm ic cps lines).1 =
      (lines.map fun line =>
        (cps.map fun cp => (runFindall rm ic cp line).length).sum).sum := by
  unfold searchLoop
  rw [lineFold_fst]
  simp

/-- The total count returned by `search_file` in non-regex mode on a
scannable file: the sum over all lines and all comma-separated keywords of
the number of non-overlapping literal matches. -/
theorem search_file_count (rm : RegexModel) (name : String) (fd : FileData)
    (pat : String) (ic : Bool)
    (hex : EXCLUDE_EXTENSIONS.contains (extOf name) = false)
    (hbin : is_binary_file fd = false) :
    (search_file rm name fd pat false ic).1 =
      (fd.lines.map fun line =>
        ((keywordsOf pat).map fun k => (litMatches ic k line.data).length).sum).sum := by
  simp only [search_file, hex, hbin, Bool.false_eq_true, if_false, Bool.false_and,
    Bool.not_false]
  rw [searchLoop_fst]
  congr 1
  apply List.map_congr_left
  intro line _
  rw [List.map_map]
  congr 1
  apply List.map_congr_left
  intro k _
  simp [Function.comp, runFindall]

/-! ## Walker lemmas: statistics do not depend on `match_only` -/

theorem map_snd_err_iff {y : Except WalkErr (List String × Stats)} {err : WalkErr} :
    y.map Prod.snd = .error err ↔ y = .error err := by
  cases y <;> simp [Except.map]

theorem nameMatchOf_congr (rm : RegexModel) {cfg₁ cfg₂ : Config} (nm : String)
    (hnp : cfg₁.name_pattern = cfg₂.name_pattern)
    (hir : cfg₁.is_regex = cfg₂.is_regex)
    (hic : cfg₁.ignore_case = cfg₂.ignore_case) :
    nameMatchOf rm cfg₁ nm = nameMatchOf rm cfg₂ nm := by
  simp [nameMatchOf, hnp, hir, hic]

theorem contentOf_congr (rm : RegexModel) {cfg₁ cfg₂ : Config} (e : FSEntry)
    (hsp : cfg₁.search_pattern = cfg₂.search_pattern)
    (hir : cfg₁.is_regex = cfg₂.is_regex)
    (hic : cfg₁.ignore_case = cfg₂.ignore_case) :
    contentOf rm cfg₁ e = contentOf rm cfg₂ e := by
  simp [contentOf, hsp, hir, hic]

theorem contentOf_dir (rm : RegexModel) (cfg : Config) (n : String) (lb : Bool)
    (ch : List FSEntry) : contentOf rm cfg (.dir n lb ch) = (0, "") := by
  simp [contentOf, isDirE]

theorem depthCutoff_congr {cfg₁ cfg₂ : Config} (d : Nat)
    (hmd : cfg₁.max_depth = cfg₂.max_depth) :
    depthCutoff cfg₁ d = depthCutoff cfg₂ d := by
  simp [depthCutoff, hmd]

theorem applyFilters_congr {cfg₁ cfg₂ : Config} (l : List FSEntry)
    (hsh : cfg₁.show_hidden = cfg₂.show_hidden)
    (hdo : cfg₁.dirs_only = cfg₂.dirs_only) :
    applyFilters cfg₁ l = applyFilters cfg₂ l := by
  simp [applyFilters, hsh, hdo]

/-- The per-frame loop returns the same statistics (and the same error, if
any) no matter how `match_only` is set: only the emitted lines differ. -/
theorem goList_snd_eq (rm : RegexModel) (cfg₁ cfg₂ : Config)
    (w₁ w₂ : FSEntry → String → Nat → Except WalkErr (List String × Stats))
    (pfx : String) (d : Nat)
    (hnp : cfg₁.name_pattern = cfg₂.name_pattern)
    (hir : cfg₁.is_regex = cfg₂.is_regex)
    (hic : cfg₁.ignore_case = cfg₂.ignore_case)
    (hsp : cfg₁.search_pattern = cfg₂.search_pattern)
    (hw : ∀ e p dd, (w₁ e p dd).map Prod.snd = (w₂ e p dd).map Prod.snd) :
    ∀ l, (goList rm cfg₁ w₁ pfx d l).map Prod.snd
       = (goList rm cfg₂ w₂ pfx d l).map Prod.snd := by
  intro l
  induction l with
  | nil => rfl
  | cons e rest ih =>
    cases e with
    | file n fdta =>
      simp only [goList]
      rw [nameMatchOf_congr rm _ hnp hir hic]
      cases hnm : nameMatchOf rm cfg₂ (nameOf (FSEntry.file n fdta)) with
      | error err => simp
      | ok nm =>
        rw [contentOf_congr rm (FSEntry.file n fdta) hsp hir hic]
        cases hr1 : goList rm cfg₁ w₁ pfx d rest with
        | error err1 =>
          rw [hr1] at ih
          rw [map_snd_err_iff.mp ih.symm]
        | ok pr1 =>
          obtain ⟨l1, s1⟩ := pr1
          rw [hr1] at ih
          cases hr2 : goList rm cfg₂ w₂ pfx d rest with
          | error err2 => rw [hr2] at ih; simp [Except.map] at ih
          | ok pr2 =>
            obtain ⟨l2, s2⟩ := pr2
            rw [hr2] at ih
            simp only [Except.map, Except.ok.injEq] at ih
            simp [Except.map, ih]
    | dir n lb ch =>
      simp only [goList]
      rw [nameMatchOf_congr rm _ hnp hir hic]
      cases hnm : nameMatchOf rm cfg₂ (nameOf (FSEntry.dir n lb ch)) with
      | error err => simp
      | ok nm =>
        rw [contentOf_congr rm (FSEntry.dir n lb ch) hsp hir hic]
        have hwe := hw (FSEntry.dir n lb ch)
          (pfx ++ (if rest.isEmpty then SPACE else PIPE)) (d + 1)
        cases hs1 : w₁ (FSEntry.dir n lb ch)
            (pfx ++ (if rest.isEmpty then SPACE else PIPE)) (d + 1) with
        | error serr1 =>
          rw [hs1] at hwe
          rw [map_snd_err_iff.mp hwe.symm]
        | ok sp1 =>
          obtain ⟨sl1, ss1⟩ := sp1
          rw [hs1] at hwe
          cases hs2 : w₂ (FSEntry.dir n lb ch)
              (pfx ++ (if rest.isEmpty then SPACE else PIPE)) (d + 1) with
          | error serr2 => rw [hs2] at hwe; simp [Except.map] at hwe
          | ok sp2 =>
            obtain ⟨sl2, ss2⟩ := sp2
            rw [hs2] at hwe
            simp only [Except.map, Except.ok.injEq] at hwe
            cases hr1 : goList rm cfg₁ w₁ pfx d rest with
            | error err1 =>
              rw [hr1] at ih
              rw [map_snd_err_iff.mp ih.symm]
            | ok pr1 =>
              obtain ⟨l1, s1⟩ := pr1
              rw [hr1] at ih
              cases hr2 : goList rm cfg₂ w₂ pfx d rest with
              | error err2 => rw [hr2] at ih; simp [Except.map] at ih
              | ok pr2 =>
                obtain ⟨l2, s2⟩ := pr2
                rw [hr2] at ih
                simp only [Except.map, Except.ok.injEq] at ih
                simp [Except.map, ih, hwe]

/-- `walkD` returns the same statistics (and the same error, if any) no
matter how `match_only` is set. -/
theorem walkD_snd_eq (rm : RegexModel) (cfg₁ cfg₂ : Config)
    (hsh : cfg₁.show_hidden = cfg₂.show_hidden)
    (hdo : cfg₁.dirs_only = cfg₂.dirs_only)
    (hmd : cfg₁.max_depth = cfg₂.max_depth)
    (hsp : cfg₁.search_pattern = cfg₂.search_pattern)
    (hnp : cfg₁.name_pattern = cfg₂.name_pattern)
    (hir : cfg₁.is_regex = cfg₂.is_regex)
    (hic : cfg₁.ignore_case = cfg₂.ignore_case) :
    ∀ fuel (e : FSEntry) (pfx : String) (d : Nat),
      (walkD rm cfg₁ fuel e pfx d).map Prod.snd
        = (walkD rm cfg₂ fuel e pfx d).map Prod.snd := by
  intro fuel
  induction fuel with
  | zero => intro e pfx d; rfl
  | succ f ih =>
    intro e pfx d
    simp only [walkD, walkAux]
    rw [depthCutoff_congr d hmd]
    by_cases hc : depthCutoff cfg₂ d
    · simp [hc]
    · simp only [hc, if_false, Bool.false_eq_true]
      cases e with
      | file n fdta => rfl
      | dir n lb ch =>
        cases lb
        · rfl
        · simp only [if_true]
          rw [applyFilters_congr (sortEntries ch) hsh hdo]
          exact goList_snd_eq rm cfg₁ cfg₂ _ _ pfx d hnp hir hic hsp
            (fun e p dd => ih e p dd) _

/-! ## Walker lemmas: the returned statistics are the spec-side counts -/

/-- Loop-level version of the counting property: when the loop over `l`
succeeds, its dir/file tallies are the spec-side tally of `l`, provided
the recursive calls (at depth `d + 1`) already enjoy the property. -/
theorem goList_stats_spec (rm : RegexModel) (cfg : Config)
    (w : FSEntry → String → Nat → Except WalkErr (List String × Stats))
    (pfx : String) (d : Nat)
    (hw : ∀ x p L s, w x p (d + 1) = .ok (L, s) →
      (s.dirs, s.files) = specPair cfg (d + 1) x) :
    ∀ l L s, goList rm cfg w pfx d l = .ok (L, s) →
      (s.dirs, s.files) = specSum cfg d l := by
  intro l
  induction l with
  | nil =>
    intro L s h
    simp only [goList, Except.ok.injEq, Prod.mk.injEq] at h
    obtain ⟨-, rfl⟩ := h
    simp [Stats.zero, specSum_nil]
  | cons e rest ih =>
    intro L s h
    cases e with
    | file n fdta =>
      simp only [goList] at h
      cases hnm : nameMatchOf rm cfg (nameOf (FSEntry.file n fdta)) with
      | error err => rw [hnm] at h; cases h
      | ok nm =>
        rw [hnm] at h
        cases hr : goList rm cfg w pfx d rest with
        | error err1 => rw [hr] at h; simp at h
        | ok pr =>
          obtain ⟨rl, rs⟩ := pr
          rw [hr] at h
          simp only [Except.ok.injEq] at h
          have hs : s = Stats.add
              ⟨0, 1, if nm then 1 else 0,
                if (contentOf rm cfg (FSEntry.file n fdta)).1 > 0 then 1 else 0⟩ rs := by
            have := congrArg Prod.snd h
            simpa [isDirE] using this.symm
          have hrest := ih rl rs hr
          rw [specSum_cons]
          rw [hs]
          simp only [Stats.add]
          rw [Prod.mk.injEq] at hrest ⊢
          simp [specEntry, specPair, pairAdd, isDirE]
          constructor
          · omega
          · omega
    | dir n lb ch =>
      simp only [goList] at h
      cases hnm : nameMatchOf rm cfg (nameOf (FSEntry.dir n lb ch)) with
      | error err => rw [hnm] at h; cases h
      | ok nm =>
        rw [hnm] at h
        cases hsub : w (FSEntry.dir n lb ch)
            (pfx ++ (if rest.isEmpty then SPACE else PIPE)) (d + 1) with
        | error serr => rw [hsub] at h; cases h
        | ok sp =>
          obtain ⟨sl, ss⟩ := sp
          rw [hsub] at h
          cases hr : goList rm cfg w pfx d rest with
          | error err1 => rw [hr] at h; simp at h
          | ok pr =>
            obtain ⟨rl, rs⟩ := pr
            rw [hr] at h
            simp only [Except.ok.injEq] at h
            have hs : s = Stats.add (Stats.add
                ⟨1, 0, if nm then 1 else 0,
                  if (contentOf rm cfg (FSEntry.dir n lb ch)).1 > 0 then 1 else 0⟩ ss) rs := by
              have := congrArg Prod.snd h
              simpa [isDirE] using this.symm
            have hrest := ih rl rs hr
            have hsubspec := hw _ _ _ _ hsub
            rw [specSum_cons]
            rw [hs]
            simp only [Stats.add]
            rw [Prod.mk.injEq] at hrest hsubspec ⊢
            simp [specEntry, pairAdd, isDirE]
            constructor
            · omega
            · omega

/-- Fuel-level version of the counting property. -/
theorem walkD_stats_spec (rm : RegexModel) (cfg : Config) :
    ∀ fuel (e : FSEntry) (pfx : String) (d : Nat) L s,
      walkD rm cfg fuel e pfx d = .ok (L, s) →
      (s.dirs, s.files) = specPair cfg d e := by
  intro fuel
  induction fuel with
  | zero => intro e pfx d L s h; cases h
  | succ f ih =>
    intro e pfx d L s h
    simp only [walkD, walkAux] at h
    by_cases hc : depthCutoff cfg d
    · rw [if_pos hc] at h
      simp only [Except.ok.injEq] at h
      have hz : s = Stats.zero := (congrArg Prod.snd h).symm
      subst hz
      cases e with
      | file n fdta => simp [specPair, Stats.zero]
      | dir n lb ch => rw [specPair_dir]; simp [hc, Stats.zero]
    · rw [if_neg hc] at h
      cases e with
      | file n fdta => cases h
      | dir n lb ch =>
        cases lb with
        | false =>
          simp only [Bool.false_eq_true, if_false, Except.ok.injEq] at h
          have hz : s = Stats.zero := (congrArg Prod.snd h).symm
          subst hz
          rw [specPair_dir]
          simp [hc, Stats.zero]
        | true =>
          simp only [if_true] at h
          have := goList_stats_spec rm cfg _ pfx d
            (fun x p L' s' hx => ih x p (d + 1) L' s' hx) _ L s h
          rw [this, specPair_dir]
          simp only [hc, if_false, if_true]
          rw [applyFilters_eq_filter]
          exact specSum_perm cfg d ((sortEntries_perm ch).filter (keptBy cfg))

/-! ## Walker lemmas: pruning, dirs-only and adequacy -/

/-- Loop-level pruning property: in matches-only mode, a loop run whose
statistics report no name match and no content match emits no lines. -/
theorem goList_pruned_nil (rm : RegexModel) (cfg : Config)
    (w : FSEntry → String → Nat → Except WalkErr (List String × Stats))
    (pfx : String) (d : Nat) (hmo : cfg.match_only = true) :
    ∀ l L s, goList rm cfg w pfx d l = .ok (L, s) →
      s.name_matches = 0 → s.content_matches = 0 → L = [] := by
  intro l
  induction l with
  | nil =>
    intro L s h _ _
    simp only [goList, Except.ok.injEq, Prod.mk.injEq] at h
    exact h.1.symm
  | cons e rest ih =>
    intro L s h hnm0 hcm0
    cases e with
    | file n fdta =>
      simp only [goList] at h
      cases hnm : nameMatchOf rm cfg (nameOf (FSEntry.file n fdta)) with
      | error err => rw [hnm] at h; cases h
      | ok nm =>
        rw [hnm] at h
        cases hr : goList rm cfg w pfx d rest with
        | error err1 => rw [hr] at h; simp at h
        | ok pr =>
          obtain ⟨rl, rs⟩ := pr
          rw [hr] at h
          simp only [Except.ok.injEq, Prod.mk.injEq] at h
          obtain ⟨hL, hS⟩ := h
          subst hS
          simp only [Stats.add] at hnm0 hcm0
          have hnmf : nm = false := by
            cases nm
            · rfl
            · simp at hnm0
          have hmcf : ¬ ((contentOf rm cfg (FSEntry.file n fdta)).1 > 0) := by
            intro hgt
            rw [if_pos hgt] at hcm0
            omega
          have hrest : rl = [] := ih rl rs hr (by omega) (by omega)
          rw [← hL, hrest, hmo, hnmf]
          simp [hmcf]
    | dir n lb ch =>
      simp only [goList] at h
      cases hnm : nameMatchOf rm cfg (nameOf (FSEntry.dir n lb ch)) with
      | error err => rw [hnm] at h; cases h
      | ok nm =>
        rw [hnm] at h
        cases hsub : w (FSEntry.dir n lb ch)
            (pfx ++ (if rest.isEmpty then SPACE else PIPE)) (d + 1) with
        | error serr => rw [hsub] at h; cases h
        | ok sp =>
          obtain ⟨sl, ss⟩ := sp
          rw [hsub] at h
          cases hr : goList rm cfg w pfx d rest with
          | error err1 => rw [hr] at h; simp at h
          | ok pr =>
            obtain ⟨rl, rs⟩ := pr
            rw [hr] at h
            simp only [Except.ok.injEq, Prod.mk.injEq] at h
            obtain ⟨hL, hS⟩ := h
            subst hS
            simp only [Stats.add] at hnm0 hcm0
            have hnmf : nm = false := by
              cases nm
              · rfl
              · simp at hnm0
            have hss1 : ss.name_matches = 0 := by omega
            have hss2 : ss.content_matches = 0 := by omega
            have hrest : rl = [] := ih rl rs hr (by omega) (by omega)
            rw [← hL, hrest, hmo, hnmf, hss1, hss2]
            simp

/-- Loop-level dirs-only property: if every entry of the list is a
directory and the recursive calls report no files and no content matches,
so does the loop. -/
theorem goList_dirs_only (rm : RegexModel) (cfg : Config)
    (w : FSEntry → String → Nat → Except WalkErr (List String × Stats))
    (pfx : String) (d : Nat)
    (hw : ∀ x p L s, w x p (d + 1) = .ok (L, s) →
      s.files = 0 ∧ s.content_matches = 0) :
    ∀ l, (∀ x ∈ l, isDirE x = true) → ∀ L s,
      goList rm cfg w pfx d l = .ok (L, s) →
      s.files = 0 ∧ s.content_matches = 0 := by
  intro l
  induction l with
  | nil =>
    intro _ L s h
    simp only [goList, Except.ok.injEq, Prod.mk.injEq] at h
    rw [← h.2]
    exact ⟨rfl, rfl⟩
  | cons e rest ih =>
    intro hall L s h
    cases e with
    | file n fdta =>
      exact absurd (hall _ (List.mem_cons_self _ _)) (by simp [isDirE])
    | dir n lb ch =>
      simp only [goList] at h
      cases hnm : nameMatchOf rm cfg (nameOf (FSEntry.dir n lb ch)) with
      | error err => rw [hnm] at h; cases h
      | ok nm =>
        rw [hnm] at h
        cases hsub : w (FSEntry.dir n lb ch)
            (pfx ++ (if rest.isEmpty then SPACE else PIPE)) (d + 1) with
        | error serr => rw [hsub] at h; cases h
        | ok sp =>
          obtain ⟨sl, ss⟩ := sp
          rw [hsub] at h
          cases hr : goList rm cfg w pfx d rest with
          | error err1 => rw [hr] at h; simp at h
          | ok pr =>
            obtain ⟨rl, rs⟩ := pr
            rw [hr] at h
            simp only [Except.ok.injEq, Prod.mk.injEq] at h
            obtain ⟨-, hS⟩ := h
            subst hS
            obtain ⟨h1a, h1b⟩ := hw _ _ _ _ hsub
            obtain ⟨h2a, h2b⟩ := ih (fun x hx => hall x (List.mem_cons_of_mem _ hx)) rl rs hr
            simp [Stats.add, contentOf_dir, isDirE]
            constructor
            · omega
            · omega

/-- Loop-level line comparison between a matches-only run and a
show-everything run over the same entries: the pruned run emits a
subsequence of the unpruned lines. -/
theorem goList_sublist (rm : RegexModel) (cfg₁ cfg₂ : Config)
    (w₁ w₂ : FSEntry → String → Nat → Except WalkErr (List String × Stats))
    (pfx : String) (d : Nat)
    (hmo₂ : cfg₂.match_only = false)
    (hnp : cfg₁.name_pattern = cfg₂.name_pattern)
    (hir : cfg₁.is_regex = cfg₂.is_regex)
    (hic : cfg₁.ignore_case = cfg₂.ignore_case)
    (hsp : cfg₁.search_pattern = cfg₂.search_pattern)
    (hw : ∀ e p dd L₁ s₁ L₂ s₂, w₁ e p dd = .ok (L₁, s₁) → w₂ e p dd = .ok (L₂, s₂) →
      List.Sublist L₁ L₂) :
    ∀ l L₁ s₁ L₂ s₂, goList rm cfg₁ w₁ pfx d l = .ok (L₁, s₁) →
      goList rm cfg₂ w₂ pfx d l = .ok (L₂, s₂) → List.Sublist L₁ L₂ := by
  intro l
  induction l with
  | nil =>
    intro L₁ s₁ L₂ s₂ h1 h2
    simp only [goList, Except.ok.injEq, Prod.mk.injEq] at h1 h2
    rw [← h1.1, ← h2.1]
  | cons e rest ih =>
    intro L₁ s₁ L₂ s₂ h1 h2
    cases e with
    | file n fdta =>
      simp only [goList] at h1 h2
      rw [nameMatchOf_congr rm _ hnp hir hic] at h1
      cases hnm : nameMatchOf rm cfg₂ (nameOf (FSEntry.file n fdta)) with
      | error err => rw [hnm] at h1; cases h1
      | ok nm =>
        rw [hnm] at h1 h2
        cases hr1 : goList rm cfg₁ w₁ pfx d rest with
        | error err1 => rw [hr1] at h1; simp at h1
        | ok pr1 =>
          obtain ⟨rl1, rs1⟩ := pr1
          rw [hr1] at h1
          cases hr2 : goList rm cfg₂ w₂ pfx d rest with
          | error err2 => rw [hr2] at h2; simp at h2
          | ok pr2 =>
            obtain ⟨rl2, rs2⟩ := pr2
            rw [hr2] at h2
            simp only [Except.ok.injEq, Prod.mk.injEq] at h1 h2
            rw [← h1.1, ← h2.1]
            have htail : List.Sublist rl1 rl2 := ih rl1 rs1 rl2 rs2 hr1 hr2
            rw [contentOf_congr rm (FSEntry.file n fdta) hsp hir hic, hmo₂, hsp, hnp]
            simp only [Bool.not_false, Bool.true_or, if_true]
            apply List.Sublist.append _ htail
            split
            · exact List.Sublist.refl _
            · exact List.nil_sublist _
    | dir n lb ch =>
      simp only [goList] at h1 h2
      rw [nameMatchOf_congr rm _ hnp hir hic] at h1
      cases hnm : nameMatchOf rm cfg₂ (nameOf (FSEntry.dir n lb ch)) with
      | error err => rw [hnm] at h1; cases h1
      | ok nm =>
        rw [hnm] at h1 h2
        cases hs1 : w₁ (FSEntry.dir n lb ch)
            (pfx ++ (if rest.isEmpty then SPACE else PIPE)) (d + 1) with
        | error serr => rw [hs1] at h1; cases h1
        | ok sp1 =>
          obtain ⟨sl1, ss1⟩ := sp1
          rw [hs1] at h1
          cases hs2 : w₂ (FSEntry.dir n lb ch)
              (pfx ++ (if rest.isEmpty then SPACE else PIPE)) (d + 1) with
          | error serr => rw [hs2] at h2; cases h2
          | ok sp2 =>
            obtain ⟨sl2, ss2⟩ := sp2
            rw [hs2] at h2
            cases hr1 : goList rm cfg₁ w₁ pfx d rest with
            | error err1 => rw [hr1] at h1; simp at h1
            | ok pr1 =>
              obtain ⟨rl1, rs1⟩ := pr1
              rw [hr1] at h1
              cases hr2 : goList rm cfg₂ w₂ pfx d rest with
              | error err2 => rw [hr2] at h2; simp at h2
              | ok pr2 =>
                obtain ⟨rl2, rs2⟩ := pr2
                rw [hr2] at h2
                simp only [Except.ok.injEq, Prod.mk.injEq] at h1 h2
                rw [← h1.1, ← h2.1]
                have htail : List.Sublist rl1 rl2 := ih rl1 rs1 rl2 rs2 hr1 hr2
                have hsubl : List.Sublist sl1 sl2 := hw _ _ _ _ _ _ _ hs1 hs2
                rw [contentOf_congr rm (FSEntry.dir n lb ch) hsp hir hic, hmo₂, hsp, hnp]
                simp only [Bool.not_false, Bool.true_or, if_true]
                apply List.Sublist.append _ htail
                split
                · exact List.Sublist.cons₂ _ hsubl
                · exact List.nil_sublist _

/-- A name-match test that cannot raise: either no regex mode, or the name
pattern compiles. -/
theorem nameMatchOf_ok (rm : RegexModel) (cfg : Config) (nm : String)
    (hname : cfg.is_regex = true → truthyOpt cfg.name_pattern = true →
      rm.compiles (cfg.name_pattern.getD "") = true) :
    ∃ b, nameMatchOf rm cfg nm = .ok b := by
  unfold nameMatchOf
  by_cases ht : truthyOpt cfg.name_pattern
  · rw [if_pos ht]
    by_cases hr : cfg.is_regex
    · rw [if_pos hr, if_pos (hname hr ht)]
      exact ⟨_, rfl⟩
    · rw [if_neg hr]
      exact ⟨_, rfl⟩
  · rw [if_neg ht]
    exact ⟨false, rfl⟩

/-- Loop-level adequacy: if the name pattern cannot raise and every
directory entry of the list gets a successful recursive call, the loop
succeeds. -/
theorem goList_ok (rm : RegexModel) (cfg : Config)
    (w : FSEntry → String → Nat → Except WalkErr (List String × Stats))
    (pfx : String) (d : Nat)
    (hname : cfg.is_regex = true → truthyOpt cfg.name_pattern = true →
      rm.compiles (cfg.name_pattern.getD "") = true) :
    ∀ l, (∀ x ∈ l, isDirE x = true → ∀ p dd, ∃ r, w x p dd = .ok r) →
      ∃ r, goList rm cfg w pfx d l = .ok r := by
  intro l
  induction l with
  | nil => exact fun _ => ⟨([], Stats.zero), rfl⟩
  | cons e rest ih =>
    intro hall
    obtain ⟨rr, hr⟩ := ih (fun x hx => hall x (List.mem_cons_of_mem _ hx))
    obtain ⟨rl, rs⟩ := rr
    cases e with
    | file n fdta =>
      obtain ⟨nm, hnm⟩ := nameMatchOf_ok rm cfg (nameOf (FSEntry.file n fdta)) hname
      simp only [goList, hnm, hr]
      exact ⟨_, rfl⟩
    | dir n lb ch =>
      obtain ⟨nm, hnm⟩ := nameMatchOf_ok rm cfg (nameOf (FSEntry.dir n lb ch)) hname
      obtain ⟨sr, hs⟩ := hall _ (List.mem_cons_self _ _) (by simp [isDirE])
        (pfx ++ (if rest.isEmpty then SPACE else PIPE)) (d + 1)
      obtain ⟨sl, ss⟩ := sr
      simp only [goList, hnm, hs, hr]
      exact ⟨_, rfl⟩

theorem isDirE_of_mem_applyFilters {cfg : Config} {x : FSEntry} {l : List FSEntry}
    (hdo : cfg.dirs_only = true) (h : x ∈ applyFilters cfg l) : isDirE x = true := by
  rw [applyFilters_eq_filter] at h
  have := (List.mem_filter.mp h).2
  simp only [keptBy, hdo, Bool.not_true, Bool.false_or, Bool.and_eq_true] at this
  exact this.2

/-- Fuel-level adequacy: on a directory, with enough fuel and a name
pattern that cannot raise, the walk returns a result. -/
theorem walkD_ok (rm : RegexModel) (cfg : Config)
    (hname : cfg.is_regex = true → truthyOpt cfg.name_pattern = true →
      rm.compiles (cfg.name_pattern.getD "") = true) :
    ∀ fuel (e : FSEntry), isDirE e = true → fsSize e ≤ fuel →
      ∀ (pfx : String) (d : Nat), ∃ r, walkD rm cfg fuel e pfx d = .ok r := by
  intro fuel
  induction fuel with
  | zero =>
    intro e _ hsz
    have := fsSize_pos e
    omega
  | succ f ih =>
    intro e hdir hsz pfx d
    cases e with
    | file n fdta => simp [isDirE] at hdir
    | dir n lb ch =>
      by_cases hc : depthCutoff cfg d
      · exact ⟨([], Stats.zero), by simp [walkD, walkAux, hc]⟩
      · cases lb with
        | false =>
          exact ⟨([pfx ++ Colors.DIM ++ "[permission denied]" ++ Colors.RESET], Stats.zero),
            by simp [walkD, walkAux, hc]⟩
        | true =>
          have hfs : fsSizeList ch ≤ f := by
            simp only [fsSize] at hsz
            omega
          obtain ⟨r, hr⟩ := goList_ok rm cfg (walkD rm cfg f) pfx d hname
            (applyFilters cfg (sortEntries ch))
            (fun x hx hxdir p dd => by
              have hmem : x ∈ ch := (sortEntries_perm ch).mem_iff.mp (mem_applyFilters hx)
              have hlt : fsSize x < fsSizeList ch := fsSize_lt_of_mem hmem
              exact ih x hxdir (by omega) p dd)
          exact ⟨r, by simp only [walkD, walkAux, hc, if_false, if_true, Bool.false_eq_true]; exact hr⟩


/-! ## Fuel-level wrappers -/

theorem walkD_dirs_only (rm : RegexModel) (cfg : Config) (hdo : cfg.dirs_only = true) :
    ∀ fuel (e : FSEntry) (pfx : String) (d : Nat) L s,
      walkD rm cfg fuel e pfx d = .ok (L, s) →
      s.files = 0 ∧ s.content_matches = 0 := by
  intro fuel
  induction fuel with
  | zero => intro e pfx d L s h; cases h
  | succ f ih =>
    intro e pfx d L s h
    simp only [walkD, walkAux] at h
    by_cases hc : depthCutoff cfg d
    · rw [if_pos hc] at h
      simp only [Except.ok.injEq, Prod.mk.injEq] at h
      rw [← h.2]
      exact ⟨rfl, rfl⟩
    · rw [if_neg hc] at h
      cases e with
      | file n fdta => cases h
      | dir n lb ch =>
        cases lb with
        | false =>
          simp only [Bool.false_eq_true, if_false, Except.ok.injEq, Prod.mk.injEq] at h
          rw [← h.2]
          exact ⟨rfl, rfl⟩
        | true =>
          simp only [if_true] at h
          exact goList_dirs_only rm cfg _ pfx d
            (fun x p L' s' hx => ih x p (d + 1) L' s' hx) _
            (fun x hx => isDirE_of_mem_applyFilters hdo hx) L s h

theorem walkD_sublist (rm : RegexModel) (cfg₁ cfg₂ : Config)
    (hmo₂ : cfg₂.match_only = false)
    (hsh : cfg₁.show_hidden = cfg₂.show_hidden)
    (hdo : cfg₁.dirs_only = cfg₂.dirs_only)
    (hmd : cfg₁.max_depth = cfg₂.max_depth)
    (hsp : cfg₁.search_pattern = cfg₂.search_pattern)
    (hnp : cfg₁.name_pattern = cfg₂.name_pattern)
    (hir : cfg₁.is_regex = cfg₂.is_regex)
    (hic : cfg₁.ignore_case = cfg₂.ignore_case) :
    ∀ fuel (e : FSEntry) (pfx : String) (d : Nat) L₁ s₁ L₂ s₂,
      walkD rm cfg₁ fuel e pfx d = .ok (L₁, s₁) →
      walkD rm cfg₂ fuel e pfx d = .ok (L₂, s₂) →
      List.Sublist L₁ L₂ := by
  intro fuel
  induction fuel with
  | zero => intro e pfx d L₁ s₁ L₂ s₂ h1 _; cases h1
  | succ f ih =>
    intro e pfx d L₁ s₁ L₂ s₂ h1 h2
    simp only [walkD, walkAux] at h1 h2
    rw [depthCutoff_congr d hmd] at h1
    by_cases hc : depthCutoff cfg₂ d
    · rw [if_pos hc] at h1 h2
      simp only [Except.ok.injEq, Prod.mk.injEq] at h1 h2
      rw [← h1.1, ← h2.1]
    · rw [if_neg hc] at h1 h2
      cases e with
      | file n fdta => cases h1
      | dir n lb ch =>
        cases lb with
        | false =>
          simp only [Bool.false_eq_true, if_false, Except.ok.injEq, Prod.mk.injEq] at h1 h2
          rw [← h1.1, ← h2.1]
        | true =>
          simp only [if_true] at h1 h2
          rw [applyFilters_congr (sortEntries ch) hsh hdo] at h1
          exact goList_sublist rm cfg₁ cfg₂ _ _ pfx d hmo₂ hnp hir hic hsp
            (fun e p dd La sa Lb sb ha hb => ih e p dd La sa Lb sb ha hb)
            _ L₁ s₁ L₂ s₂ h1 h2

theorem walk_tree_pruned_nil (rm : RegexModel) (cfg : Config)
    (hmo : cfg.match_only = true) (n : String) (ch : List FSEntry)
    (pfx : String) (d : Nat) (L : List String) (s : Stats)
    (h : walk_tree rm cfg (.dir n true ch) pfx d = .ok (L, s))
    (h1 : s.name_matches = 0) (h2 : s.content_matches = 0) : L = [] := by
  unfold walk_tree at h
  have hf : fsSize (FSEntry.dir n true ch) = fsSizeList ch + 1 := by
    unfold fsSize
    omega
  rw [hf] at h
  simp only [walkD, walkAux] at h
  by_cases hc : depthCutoff cfg d
  · rw [if_pos hc] at h
    simp only [Except.ok.injEq, Prod.mk.injEq] at h
    exact h.1.symm
  · rw [if_neg hc] at h
    simp only [if_true] at h
    exact goList_pruned_nil rm cfg _ pfx d hmo _ L s h h1 h2


/-! ## Walker lemmas: the full Stats record is the spec-side aggregate -/

theorem Stats.zero_add_left (s : Stats) : Stats.add Stats.zero s = s := by
  cases s; simp [Stats.add, Stats.zero]

/-- The name-pattern test, whenever it succeeds, returns exactly the pure
name-match value. -/
theorem nameMatchOf_ok_val (rm : RegexModel) (cfg : Config) (nm : String) {b : Bool}
    (h : nameMatchOf rm cfg nm = .ok b) : b = nameMatchedB rm cfg nm := by
  simp only [nameMatchOf] at h
  unfold nameMatchedB
  by_cases ht : truthyOpt cfg.name_pattern
  · simp only [ht, if_true] at h ⊢
    by_cases hr : cfg.is_regex
    · simp only [hr, if_true] at h ⊢
      by_cases hc : rm.compiles (cfg.name_pattern.getD "")
      · simp only [hc, if_true] at h
        injection h with h2
        exact h2.symm
      · simp only [hc, Bool.false_eq_true, if_false] at h
        cases h
    · simp only [hr, Bool.false_eq_true, if_false] at h ⊢
      injection h with h2
      exact h2.symm
  · simp only [ht, Bool.false_eq_true, if_false] at h ⊢
    injection h with h2
    exact h2.symm

theorem specSumFull_components (rm : RegexModel) (cfg : Config) (d : Nat)
    (l : List FSEntry) :
    specSumFull rm cfg d l =
      ⟨(l.map fun x => (Stats.add (specTally rm cfg x) (specStats rm cfg (d + 1) x)).dirs).sum,
       (l.map fun x => (Stats.add (specTally rm cfg x) (specStats rm cfg (d + 1) x)).files).sum,
       (l.map fun x =>
         (Stats.add (specTally rm cfg x) (specStats rm cfg (d + 1) x)).name_matches).sum,
       (l.map fun x =>
         (Stats.add (specTally rm cfg x) (specStats rm cfg (d + 1) x)).content_matches).sum⟩ := by
  induction l with
  | nil => rfl
  | cons x rest ih => simp [specSumFull, ih, Stats.add]

theorem specSumFull_perm (rm : RegexModel) (cfg : Config) (d : Nat)
    {l₁ l₂ : List FSEntry} (h : List.Perm l₁ l₂) :
    specSumFull rm cfg d l₁ = specSumFull rm cfg d l₂ := by
  rw [specSumFull_components, specSumFull_components]
  simp only [Stats.mk.injEq]
  exact ⟨(h.map _).sum_eq, (h.map _).sum_eq, (h.map _).sum_eq, (h.map _).sum_eq⟩

theorem specStatsKept_eq (rm : RegexModel) (cfg : Config) (d : Nat) (l : List FSEntry) :
    specStatsKept rm cfg d l = specSumFull rm cfg d (l.filter (keptBy cfg)) := by
  induction l with
  | nil => rfl
  | cons x rest ih =>
    simp only [specStatsKept, List.filter_cons]
    split
    · rw [ih]
      rfl
    · rw [ih, Stats.zero_add_left]

theorem specStats_dir (rm : RegexModel) (cfg : Config) (depth : Nat) (n : String)
    (lb : Bool) (ch : List FSEntry) :
    specStats rm cfg depth (.dir n lb ch) =
      if depthCutoff cfg depth then Stats.zero
      else if lb then specSumFull rm cfg depth (ch.filter (keptBy cfg))
      else Stats.zero := by
  rw [specStats, specStatsKept_eq]

/-- Loop-level full-record aggregate invariant: the loop's Stats is the
sum over its entries of each entry's own tally plus its whole subtree's
spec-side Stats, provided the recursive calls already enjoy the
property. -/
theorem goList_stats_full (rm : RegexModel) (cfg : Config)
    (w : FSEntry → String → Nat → Except WalkErr (List String × Stats))
    (pfx : String) (d : Nat)
    (hw : ∀ x p L s, w x p (d + 1) = .ok (L, s) → s = specStats rm cfg (d + 1) x) :
    ∀ l L s, goList rm cfg w pfx d l = .ok (L, s) → s = specSumFull rm cfg d l := by
  intro l
  induction l with
  | nil =>
    intro L s h
    simp only [goList, Except.ok.injEq, Prod.mk.injEq] at h
    exact h.2.symm
  | cons e rest ih =>
    intro L s h
    cases e with
    | file n fdta =>
      simp only [goList] at h
      cases hnm : nameMatchOf rm cfg (nameOf (FSEntry.file n fdta)) with
      | error err => rw [hnm] at h; cases h
      | ok nm =>
        rw [hnm] at h
        cases hr : goList rm cfg w pfx d rest with
        | error err1 => rw [hr] at h; simp at h
        | ok pr =>
          obtain ⟨rl, rs⟩ := pr
          rw [hr] at h
          simp only [Except.ok.injEq] at h
          have hs : s = Stats.add
              ⟨0, 1, if nm then 1 else 0,
                if (contentOf rm cfg (FSEntry.file n fdta)).1 > 0 then 1 else 0⟩ rs := by
            have := congrArg Prod.snd h
            simpa [isDirE] using this.symm
          have hrest := ih rl rs hr
          have hb := nameMatchOf_ok_val rm cfg (nameOf (FSEntry.file n fdta)) hnm
          rw [hs, hrest, hb]
          simp [specSumFull, specTally, specStats, isDirE, Stats.add_zero_right]
    | dir n lb ch =>
      simp only [goList] at h
      cases hnm : nameMatchOf rm cfg (nameOf (FSEntry.dir n lb ch)) with
      | error err => rw [hnm] at h; cases h
      | ok nm =>
        rw [hnm] at h
        cases hsub : w (FSEntry.dir n lb ch)
            (pfx ++ (if rest.isEmpty then SPACE else PIPE)) (d + 1) with
        | error serr => rw [hsub] at h; cases h
        | ok sp =>
          obtain ⟨sl, ss⟩ := sp
          rw [hsub] at h
          cases hr : goList rm cfg w pfx d rest with
          | error err1 => rw [hr] at h; simp at h
          | ok pr =>
            obtain ⟨rl, rs⟩ := pr
            rw [hr] at h
            simp only [Except.ok.injEq] at h
            have hs : s = Stats.add (Stats.add
                ⟨1, 0, if nm then 1 else 0,
                  if (contentOf rm cfg (FSEntry.dir n lb ch)).1 > 0 then 1 else 0⟩ ss) rs := by
              have := congrArg Prod.snd h
              simpa [isDirE] using this.symm
            have hrest := ih rl rs hr
            have hss := hw _ _ _ _ hsub
            have hb := nameMatchOf_ok_val rm cfg (nameOf (FSEntry.dir n lb ch)) hnm
            rw [hs, hrest, hss, hb]
            simp [specSumFull, specTally, isDirE]

/-- Fuel-level full-record aggregate invariant. -/
theorem walkD_stats_full (rm : RegexModel) (cfg : Config) :
    ∀ fuel (e : FSEntry) (pfx : String) (d : Nat) L s,
      walkD rm cfg fuel e pfx d = .ok (L, s) → s = specStats rm cfg d e := by
  intro fuel
  induction fuel with
  | zero => intro e pfx d L s h; cases h
  | succ f ih =>
    intro e pfx d L s h
    simp only [walkD, walkAux] at h
    by_cases hc : depthCutoff cfg d
    · rw [if_pos hc] at h
      simp only [Except.ok.injEq, Prod.mk.injEq] at h
      rw [← h.2]
      cases e with
      | file n fdta => rfl
      | dir n lb ch => rw [specStats_dir]; simp [hc]
    · rw [if_neg hc] at h
      cases e with
      | file n fdta => cases h
      | dir n lb ch =>
        cases lb with
        | false =>
          simp only [Bool.false_eq_true, if_false, Except.ok.injEq, Prod.mk.injEq] at h
          rw [← h.2, specStats_dir]
          simp [hc]
        | true =>
          simp only [if_true] at h
          have hfull := goList_stats_full rm cfg _ pfx d
            (fun x p L' s' hx => ih x p (d + 1) L' s' hx) _ L s h
          rw [hfull, specStats_dir]
          simp only [hc, if_false, if_true]
          rw [applyFilters_eq_filter]
          exact specSumFull_perm rm cfg d ((sortEntries_perm ch).filter (keptBy cfg))

/-! ## Claim theorems -/

/-- C1: for every directory walked with a given configuration, the Stats
returned by the Tree Walker is a full-subtree aggregate: the whole
four-counter record equals the spec-side aggregate `specStats` (each kept
descendant's own direct tally — dir/file, name-match, content-match —
plus every descendant frame's Stats, summed); in particular `dirs` and
`files` equal the spec-side counts of all descendants reachable within
`maxDepth` (hidden entries excluded unless `showHidden`, non-directories
excluded under `dirsOnly`), and `files + dirs` is their total. -/
theorem walk_stats_full_subtree_aggregate (rm : RegexModel) (cfg : Config)
    (e : FSEntry) (pfx : String) (d : Nat) (L : List String) (s : Stats)
    (h : walk_tree rm cfg e pfx d = .ok (L, s)) :
    s = specStats rm cfg d e ∧
    s.dirs = (specPair cfg d e).1 ∧ s.files = (specPair cfg d e).2 ∧
      s.files + s.dirs = (specPair cfg d e).1 + (specPair cfg d e).2 := by
  unfold walk_tree at h
  have hfull := walkD_stats_full rm cfg (fsSize e) e pfx d L s h
  have hp := walkD_stats_spec rm cfg (fsSize e) e pfx d L s h
  have h1 := congrArg Prod.fst hp
  have h2 := congrArg Prod.snd hp
  simp only at h1 h2
  exact ⟨hfull, h1, h2, by omega⟩

theorem walk_stats_full_subtree_aggregate_witness :
    walk_tree pyRe {} (.dir "r" true
        [.file "a.txt" ⟨[], ["x"], true⟩, .dir "sub" true [.file "b" ⟨[], [], true⟩]]) "" 0
      = .ok (["├── \x1b[34m\x1b[1msub/\x1b[0m", "│   └── b", "└── a.txt"], ⟨1, 2, 0, 0⟩) ∧
    ((⟨1, 2, 0, 0⟩ : Stats)
        = specStats pyRe {} 0 (.dir "r" true
            [.file "a.txt" ⟨[], ["x"], true⟩, .dir "sub" true [.file "b" ⟨[], [], true⟩]]) ∧
      (⟨1, 2, 0, 0⟩ : Stats).dirs
        = (specPair {} 0 (.dir "r" true
            [.file "a.txt" ⟨[], ["x"], true⟩, .dir "sub" true [.file "b" ⟨[], [], true⟩]])).1 ∧
      (⟨1, 2, 0, 0⟩ : Stats).files
        = (specPair {} 0 (.dir "r" true
            [.file "a.txt" ⟨[], ["x"], true⟩, .dir "sub" true [.file "b" ⟨[], [], true⟩]])).2 ∧
      (⟨1, 2, 0, 0⟩ : Stats).files + (⟨1, 2, 0, 0⟩ : Stats).dirs
        = (specPair {} 0 (.dir "r" true
            [.file "a.txt" ⟨[], ["x"], true⟩, .dir "sub" true [.file "b" ⟨[], [], true⟩]])).1
          + (specPair {} 0 (.dir "r" true
            [.file "a.txt" ⟨[], ["x"], true⟩, .dir "sub" true [.file "b" ⟨[], [], true⟩]])).2) :=
  ⟨by decide,
   walk_stats_full_subtree_aggregate pyRe {}
     (.dir "r" true
       [.file "a.txt" ⟨[], ["x"], true⟩, .dir "sub" true [.file "b" ⟨[], [], true⟩]]) "" 0
     ["├── \x1b[34m\x1b[1msub/\x1b[0m", "│   └── b", "└── a.txt"] ⟨1, 2, 0, 0⟩ (by decide)⟩

/-- C2: pruning is display-only — for every tree and configuration the
statistics returned with `matchesOnly = true` are identical to those with
`matchesOnly = false` (the two runs also fail identically); and when a
matches-only walk of a listable directory reports zero name matches and
zero content matches, it emits zero lines while the stats still carry the
true dir/file counts (which the first conjunct guarantees). -/
theorem pruning_is_display_only (rm : RegexModel) (cfg : Config)
    (e : FSEntry) (pfx : String) (d : Nat) :
    ((walk_tree rm { cfg with match_only := true } e pfx d).map Prod.snd
      = (walk_tree rm { cfg with match_only := false } e pfx d).map Prod.snd) ∧
    (∀ n ch L s, cfg.match_only = true →
      walk_tree rm cfg (.dir n true ch) pfx d = .ok (L, s) →
      s.name_matches = 0 → s.content_matches = 0 → L = []) := by
  constructor
  · unfold walk_tree
    exact walkD_snd_eq rm { cfg with match_only := true } { cfg with match_only := false }
      rfl rfl rfl rfl rfl rfl rfl (fsSize e) e pfx d
  · intro n ch L s hmo h h1 h2
    exact walk_tree_pruned_nil rm cfg hmo n ch pfx d L s h h1 h2

theorem pruning_is_display_only_witness :
    ((walk_tree pyRe { ({ match_only := true } : Config) with match_only := true }
        (.dir "r" true [.file "a" ⟨[], ["x"], true⟩, .dir "sub" true []]) "" 0).map Prod.snd
      = (walk_tree pyRe { ({ match_only := true } : Config) with match_only := false }
        (.dir "r" true [.file "a" ⟨[], ["x"], true⟩, .dir "sub" true []]) "" 0).map Prod.snd) ∧
    ([] : List String) = [] :=
  ⟨(pruning_is_display_only pyRe { match_only := true }
      (.dir "r" true [.file "a" ⟨[], ["x"], true⟩, .dir "sub" true []]) "" 0).1,
   (pruning_is_display_only pyRe { match_only := true }
      (.dir "r" true [.file "a" ⟨[], ["x"], true⟩, .dir "sub" true []]) "" 0).2
     "r" [.file "a" ⟨[], ["x"], true⟩, .dir "sub" true []] [] ⟨1, 1, 0, 0⟩
     rfl (by decide) rfl rfl⟩

/-- C3 counterexample: the claim "no exception escapes the Tree Walker for
every string supplied as namePattern with isRegex = true" is false — on a
directory with one entry, the uncaught `re.compile` of the non-compiling
name pattern `"("` (src/shinju.py:199) raises out of the walker, so the
walk returns an error instead of a (lines, stats) pair. -/
theorem walker_raises_on_invalid_name_regex :
    walk_tree pyRe { name_pattern := some "(", is_regex := true }
      (.dir "d" true [.file "f" ⟨[], [], true⟩]) "" 0 = .error .reError := by
  decide

/-- C3 (amended): for every directory and every configuration whose name
pattern cannot fail to compile (in particular whenever `isRegex` is false,
or the name pattern is absent, or it is a valid regex), no exception
escapes the Tree Walker: permission errors and per-file search errors —
including an invalid regex given as the content search pattern — are
absorbed locally, and the walk returns a (lines, stats) pair. -/
theorem walker_absorbs_errors_amended (rm : RegexModel) (cfg : Config)
    (n : String) (lb : Bool) (ch : List FSEntry) (pfx : String) (d : Nat)
    (hname : cfg.is_regex = true → truthyOpt cfg.name_pattern = true →
      rm.compiles (cfg.name_pattern.getD "") = true) :
    ∃ L s, walk_tree rm cfg (.dir n lb ch) pfx d = .ok (L, s) := by
  obtain ⟨r, hr⟩ := walkD_ok rm cfg hname (fsSize (FSEntry.dir n lb ch))
    (FSEntry.dir n lb ch) (by simp [isDirE]) (Nat.le_refl _) pfx d
  obtain ⟨L, s⟩ := r
  exact ⟨L, s, hr⟩

theorem walker_absorbs_errors_amended_witness :
    ∃ L s, walk_tree pyRe { search_pattern := some "(", name_pattern := some "(" }
        (.dir "d" false [.file "f" ⟨[], [], true⟩]) "" 0 = .ok (L, s) :=
  walker_absorbs_errors_amended pyRe
    { search_pattern := some "(", name_pattern := some "(" }
    "d" false [.file "f" ⟨[], [], true⟩] "" 0 (by decide)

/-- C4: on a text file of three lines each containing the literal
(comma-free, trimmed, non-regex) keyword exactly twice, `search_file`
returns a count of 6, while a walk over a directory holding exactly that
file increments the frame's contentMatches by exactly 1 (final stats
`{dirs 0, files 1, nameMatches 0, contentMatches 1}`). -/
theorem content_count_six_frame_increment_one (rm : RegexModel) (k fn : String)
    (fd : FileData) (l1 l2 l3 : String)
    (hk : keywordsOf k = [k.data])
    (hl : fd.lines = [l1, l2, l3])
    (hc1 : (litMatches false k.data l1.data).length = 2)
    (hc2 : (litMatches false k.data l2.data).length = 2)
    (hc3 : (litMatches false k.data l3.data).length = 2)
    (hex : EXCLUDE_EXTENSIONS.contains (extOf fn) = false)
    (hbin : is_binary_file fd = false)
    (hfn : startsWithDot fn = false) :
    (search_file rm fn fd k false false).1 = 6 ∧
    ∃ L, walk_tree rm { search_pattern := some k }
        (.dir "r" true [.file fn fd]) "" 0 = .ok (L, ⟨0, 1, 0, 1⟩) := by
  have hkne : k ≠ "" := fun hh => absurd (hh ▸ hk) (by decide)
  have hA : (search_file rm fn fd k false false).1 = 6 := by
    rw [search_file_count rm fn fd k false hex hbin, hk, hl]
    simp [hc1, hc2, hc3]
  refine ⟨hA, ?_⟩
  unfold walk_tree
  have hf : fsSize (FSEntry.dir "r" true [FSEntry.file fn fd])
      = fsSizeList [FSEntry.file fn fd] + 1 := by
    unfold fsSize
    omega
  rw [hf]
  simp only [walkD, walkAux]
  have hcut : depthCutoff { search_pattern := some k } 0 = false := rfl
  simp only [hcut, Bool.false_eq_true, if_false, if_true]
  have hsort : sortEntries [FSEntry.file fn fd] = [FSEntry.file fn fd] := rfl
  rw [hsort]
  have hfilt : applyFilters { search_pattern := some k } [FSEntry.file fn fd]
      = [FSEntry.file fn fd] := by
    simp [applyFilters, List.filter, nameOf, hfn]
  rw [hfilt]
  have hnm : nameMatchOf rm { search_pattern := some k } (nameOf (FSEntry.file fn fd))
      = .ok false := rfl
  have hco : contentOf rm { search_pattern := some k } (FSEntry.file fn fd)
      = search_file rm fn fd k false false := by
    simp [contentOf, truthyOpt, isDirE, nameOf, dataOf, hkne]
  simp only [goList, hnm, hco, hA, isDirE]
  exact ⟨_, rfl⟩

theorem content_count_six_frame_increment_one_witness :
    (search_file pyRe "f.txt" ⟨[], ["ab ab", "xabab", "ab cd ab"], true⟩ "ab" false false).1 = 6 ∧
    ∃ L, walk_tree pyRe { search_pattern := some "ab" }
        (.dir "r" true [.file "f.txt" ⟨[], ["ab ab", "xabab", "ab cd ab"], true⟩]) "" 0
      = .ok (L, ⟨0, 1, 0, 1⟩) :=
  content_count_six_frame_increment_one pyRe "ab" "f.txt"
    ⟨[], ["ab ab", "xabab", "ab cd ab"], true⟩ "ab ab" "xabab" "ab cd ab"
    (by decide) rfl (by decide) (by decide) (by decide) (by decide) (by decide) (by decide)

/-- C5: in non-regex mode the pattern is split on commas into trimmed
literal keywords, each an independent alternative: with pattern
`"foo,bar"`, a scannable text file containing "bar" exactly once and "foo"
not at all yields a match count of exactly 1. -/
theorem comma_split_matches_bar_once (rm : RegexModel) (fn : String) (fd : FileData)
    (hex : EXCLUDE_EXTENSIONS.contains (extOf fn) = false)
    (hbin : is_binary_file fd = false)
    (hbar : (fd.lines.map fun ln => (litMatches false "bar".data ln.data).length).sum = 1)
    (hfoo : (fd.lines.map fun ln => (litMatches false "foo".data ln.data).length).sum = 0) :
    (search_file rm fn fd "foo,bar" false false).1 = 1 := by
  rw [search_file_count rm fn fd "foo,bar" false hex hbin]
  have hkw : keywordsOf "foo,bar" = ["foo".data, "bar".data] := by decide
  rw [hkw]
  have hsplit : ∀ (l : List String) (f g : String → Nat),
      (l.map (fun x => f x + g x)).sum = (l.map f).sum + (l.map g).sum := by
    intro l f g
    induction l with
    | nil => simp
    | cons a t ih => simp [ih]; omega
  simp only [List.map_cons, List.map_nil, List.sum_cons, List.sum_nil, Nat.add_zero]
  rw [hsplit]
  rw [hfoo, hbar]

theorem comma_split_matches_bar_once_witness :
    (search_file pyRe "a.txt" ⟨[], ["xx bar yy"], true⟩ "foo,bar" false false).1 = 1 :=
  comma_split_matches_bar_once pyRe "a.txt" ⟨[], ["xx bar yy"], true⟩
    (by decide) (by decide) (by decide) (by decide)

/-- C6: depth cutoff — whenever `maxDepth` is set and the walk is invoked
at `depth ≥ maxDepth`, it returns an empty line sequence and all-zero
stats immediately, for any tree; with `maxDepth = 0` this applies already
at the root. -/
theorem depth_cutoff_empty (rm : RegexModel) (cfg : Config) (e : FSEntry)
    (pfx : String) (d : Nat) (m : Int)
    (hm : cfg.max_depth = some m) (hdm : m ≤ (d : Int)) :
    walk_tree rm cfg e pfx d = .ok ([], Stats.zero) := by
  unfold walk_tree
  obtain ⟨f, hf⟩ : ∃ f, fsSize e = f + 1 :=
    ⟨fsSize e - 1, by have := fsSize_pos e; omega⟩
  rw [hf]
  simp only [walkD, walkAux]
  have hcut : depthCutoff cfg d = true := by
    simp [depthCutoff, hm]
    omega
  rw [if_pos hcut]

theorem depth_cutoff_empty_witness :
    walk_tree pyRe { max_depth := some 0 }
      (.dir "r" true [.file "a" ⟨[], ["x"], true⟩, .dir "sub" true []]) "" 0
      = .ok ([], Stats.zero) :=
  depth_cutoff_empty pyRe { max_depth := some 0 }
    (.dir "r" true [.file "a" ⟨[], ["x"], true⟩, .dir "sub" true []]) "" 0 0 rfl (by decide)

/-- C7: ordering — the walker's sort is a permutation of the entries that
is sorted by the key (directories before files, then case-insensitive
lexicographic name); concretely, a directory holding files "Banana",
"apple", "Cherry" and directory "Zeta" is emitted as Zeta/, apple, Banana,
Cherry. -/
theorem ordering_dirs_first_ci_lex :
    (∀ l : List FSEntry,
      List.Perm (sortEntries l) l ∧ List.Sorted entryR (sortEntries l)) ∧
    walk_tree pyRe {} (.dir "root" true
        [.file "Banana" ⟨[], [], true⟩, .file "apple" ⟨[], [], true⟩,
         .file "Cherry" ⟨[], [], true⟩, .dir "Zeta" true []]) "" 0
      = .ok (["├── \x1b[34m\x1b[1mZeta/\x1b[0m", "├── apple", "├── Banana", "└── Cherry"],
        ⟨1, 3, 0, 0⟩) := by
  constructor
  · intro l
    exact ⟨sortEntries_perm l, List.sorted_insertionSort entryR l⟩
  · decide

/-- C8: the Content Matcher rejects, with a zero count and no snippet and
without scanning, every file whose (case-insensitively compared,
separator-stripped) extension is in the fixed exclusion set, every file
whose first 1024 bytes contain a null byte, and every file whose read
fails (read failure is treated as binary). -/
theorem matcher_rejects_excluded_binary_unreadable (rm : RegexModel) (fn : String)
    (fd : FileData) (pat : String) (ir ic : Bool)
    (h : EXCLUDE_EXTENSIONS.contains (extOf fn) = true ∨
      (fd.bytes.take 1024).contains 0 = true ∨ fd.readOk = false) :
    search_file rm fn fd pat ir ic = (0, "") := by
  rcases h with h | h | h
  · unfold search_file
    rw [if_pos h]
  · have hbin : is_binary_file fd = true := by
      unfold is_binary_file
      cases hro : fd.readOk
      · simp
      · simpa using h
    unfold search_file
    split
    · rfl
    · simp [hbin]
  · have hbin : is_binary_file fd = true := by
      unfold is_binary_file
      rw [h]
      simp
    unfold search_file
    split
    · rfl
    · simp [hbin]

theorem matcher_rejects_excluded_binary_unreadable_witness :
    search_file pyRe "a.gz" ⟨[], ["keyword"], true⟩ "keyword" false false = (0, "") ∧
    search_file pyRe "a.txt" ⟨[0, 65], ["keyword"], true⟩ "keyword" false false = (0, "") ∧
    search_file pyRe "a.txt" ⟨[], [], false⟩ "keyword" false false = (0, "") :=
  ⟨matcher_rejects_excluded_binary_unreadable pyRe "a.gz" ⟨[], ["keyword"], true⟩
      "keyword" false false (Or.inl (by decide)),
   matcher_rejects_excluded_binary_unreadable pyRe "a.txt" ⟨[0, 65], ["keyword"], true⟩
      "keyword" false false (Or.inr (Or.inl (by decide))),
   matcher_rejects_excluded_binary_unreadable pyRe "a.txt" ⟨[], [], false⟩
      "keyword" false false (Or.inr (Or.inr rfl))⟩

/-- C9: for every tree and configuration, the line sequence produced with
`matchesOnly = true` is a subsequence of the one produced with
`matchesOnly = false` — pruning removes whole lines and never alters a
line's formatting. -/
theorem pruned_lines_are_subsequence (rm : RegexModel) (cfg : Config)
    (e : FSEntry) (pfx : String) (d : Nat) (L₁ : List String) (s₁ : Stats)
    (L₂ : List String) (s₂ : Stats)
    (h1 : walk_tree rm { cfg with match_only := true } e pfx d = .ok (L₁, s₁))
    (h2 : walk_tree rm { cfg with match_only := false } e pfx d = .ok (L₂, s₂)) :
    List.Sublist L₁ L₂ := by
  unfold walk_tree at h1 h2
  exact walkD_sublist rm { cfg with match_only := true } { cfg with match_only := false }
    rfl rfl rfl rfl rfl rfl rfl rfl (fsSize e) e pfx d L₁ s₁ L₂ s₂ h1 h2

theorem pruned_lines_are_subsequence_witness :
    List.Sublist
      ["├── \x1b[34m\x1b[1msub/\x1b[0m",
       "│   └── \x1b[35m\x1b[1mc.txt\x1b[0m \x1b[33m[1 match]\x1b[0m \x1b[36m[\x27hello\x27 => \x27hello again\x27]\x1b[0m",
       "├── \x1b[35m\x1b[1ma.txt\x1b[0m \x1b[33m[1 match]\x1b[0m \x1b[36m[\x27hello\x27 => \x27hello world\x27]\x1b[0m"]
      ["├── \x1b[34m\x1b[1msub/\x1b[0m",
       "│   └── \x1b[35m\x1b[1mc.txt\x1b[0m \x1b[33m[1 match]\x1b[0m \x1b[36m[\x27hello\x27 => \x27hello again\x27]\x1b[0m",
       "├── \x1b[35m\x1b[1ma.txt\x1b[0m \x1b[33m[1 match]\x1b[0m \x1b[36m[\x27hello\x27 => \x27hello world\x27]\x1b[0m",
       "└── \x1b[2mb.txt\x1b[0m"] :=
  pruned_lines_are_subsequence pyRe { search_pattern := some "hello" }
    (.dir "r" true
      [.file "a.txt" ⟨[], ["hello world"], true⟩,
       .file "b.txt" ⟨[], ["nope"], true⟩,
       .dir "sub" true [.file "c.txt" ⟨[], ["hello again"], true⟩]]) "" 0
    _ ⟨1, 3, 0, 2⟩ _ ⟨1, 3, 0, 2⟩ (by decide) (by decide)

/-- C10: whenever `dirsOnly` is set, every successful walk returns stats
with `files = 0` and `contentMatches = 0`, regardless of the search
pattern: non-directories are filtered out before counting, and the content
matcher only runs on non-directories. -/
theorem dirs_only_no_files_no_content (rm : RegexModel) (cfg : Config)
    (e : FSEntry) (pfx : String) (d : Nat) (L : List String) (s : Stats)
    (hdo : cfg.dirs_only = true)
    (h : walk_tree rm cfg e pfx d = .ok (L, s)) :
    s.files = 0 ∧ s.content_matches = 0 := by
  unfold walk_tree at h
  exact walkD_dirs_only rm cfg hdo (fsSize e) e pfx d L s h

theorem dirs_only_no_files_no_content_witness :
    (⟨1, 0, 0, 0⟩ : Stats).files = 0 ∧ (⟨1, 0, 0, 0⟩ : Stats).content_matches = 0 :=
  dirs_only_no_files_no_content pyRe { dirs_only := true, search_pattern := some "x" }
    (.dir "r" true [.file "a.txt" ⟨[], ["x"], true⟩, .dir "sub" true [.file "b.txt" ⟨[], ["x"], true⟩]])
    "" 0 ["└── \x1b[34m\x1b[1msub/\x1b[0m"] ⟨1, 0, 0, 0⟩ rfl (by decide)


end Shinju
